import Mathlib

/-!
Verification development for `url_to_markdown.py` (beyerenrico/url-to-markdown).

URLs and path fragments are modelled as `List Char`.  The functions below are
shallow embeddings of:
  * the parts of Python's `urllib.parse.urlparse` that the program relies on
    (scheme / netloc / fragment / query / params splitting).  The WHATWG
    control-character sanitisation and the mismatched-IPv6-bracket check of
    CPython — both the identity / non-raising on URLs without control
    characters or brackets — are not modelled;
  * `WebCrawler._normalize_url`, `WebCrawler._is_valid_url`,
    `WebCrawler._is_allowed`, `WebCrawler.crawl` (src/url_to_markdown.py);
  * `WebsiteContentExtractor.parse_sitemap` and its inline normalisation;
  * `SitemapFinder.download_sitemap` / `SitemapFinder._process_sitemap_index`;
  * the orchestration skeleton of `WebsiteContentExtractor.process_website`.
-/

namespace UrlToMarkdown

/-- Characters CPython's `urllib.parse` accepts inside a scheme
(`scheme_chars = letters, digits, '+', '-', '.'`). -/
def schemeChar (c : Char) : Bool :=
  c.isAlpha || c.isDigit || c == '+' || c == '-' || c == '.'

/-- First character of a candidate scheme must be an ASCII letter
(`url[0].isascii() and url[0].isalpha()`). -/
def headIsAlpha : List Char → Bool
  | [] => false
  | c :: _ => c.isAlpha

/-- `urlsplit` scheme detection: `i = url.find(':')`; accept when `i > 0`,
the first character is an ASCII letter and every character before the colon
is a scheme character; the scheme is lowercased.  Returns
`(scheme, remainder)`; a missing scheme is the empty list. -/
def splitScheme (url : List Char) : List Char × List Char :=
  let p := url.takeWhile (fun c => c ≠ ':')
  if p.length < url.length && !p.isEmpty && headIsAlpha p && p.all schemeChar
  then (p.map Char.toLower, url.drop (p.length + 1))
  else ([], url)

/-- A character that may appear in a netloc: `_splitnetloc` stops at the
first `'/'`, `'?'` or `'#'`. -/
def netlocChar (c : Char) : Bool :=
  !(c == '/' || c == '?' || c == '#')

/-- `urlsplit` netloc detection (`if url[:2] == '//'` followed by
`_splitnetloc`): only when the remainder starts with `//`. -/
def splitNetloc (r : List Char) : List Char × List Char :=
  if r.take 2 = "//".toList then
    ((r.drop 2).takeWhile netlocChar, (r.drop 2).dropWhile netlocChar)
  else ([], r)

/-- `url.split(c, 1)`, used for the `'#'` and `'?'` splits; when `c` is
absent this returns `(l, [])`, matching Python's "leave the fragment/query
empty" behaviour. -/
def splitOnFirst (c : Char) (l : List Char) : List Char × List Char :=
  (l.takeWhile (fun x => x ≠ c), (l.dropWhile (fun x => x ≠ c)).drop 1)

/-- Split a list at its last `'/'`: `some (before, after)` with
`l = before ++ '/' :: after` and `after` slash-free, or `none` when there is
no slash.  Mirrors `url.rfind('/')`. -/
def splitLastSlash : List Char → Option (List Char × List Char)
  | [] => none
  | c :: cs =>
    match splitLastSlash cs with
    | some (a, b) => some (c :: a, b)
    | none => if c = '/' then some ([], cs) else none

/-- CPython `_splitparams`: look for a `';'` in the last path segment
(after the last `'/'`, or anywhere when there is no `'/'`); split the path
there. -/
def splitParams (p : List Char) : List Char × List Char :=
  match splitLastSlash p with
  | some (a, b) =>
    if (';' : Char) ∈ b then
      (a ++ '/' :: b.takeWhile (fun x => x ≠ ';'),
       (b.dropWhile (fun x => x ≠ ';')).drop 1)
    else (p, [])
  | none =>
    if (';' : Char) ∈ p then
      (p.takeWhile (fun x => x ≠ ';'), (p.dropWhile (fun x => x ≠ ';')).drop 1)
    else (p, [])

/-- CPython `uses_params`: schemes for which `urlparse` splits `;params`
off the path (note the empty scheme is a member). -/
def usesParams : List (List Char) :=
  [[], "ftp".toList, "hdl".toList, "prospero".toList, "http".toList,
   "imap".toList, "https".toList, "shttp".toList, "rtsp".toList,
   "rtspu".toList, "sip".toList, "sips".toList, "mms".toList,
   "sftp".toList, "tel".toList]

/-- The six components of `urllib.parse.urlparse`. -/
structure Parsed where
  scheme : List Char
  netloc : List Char
  path : List Char
  params : List Char
  query : List Char
  fragment : List Char
deriving DecidableEq, Repr

/-- Model of `urllib.parse.urlparse` (fragment split before query split,
params split only for `uses_params` schemes). -/
def urlparse (url : List Char) : Parsed :=
  let sp := splitScheme url
  let nl := splitNetloc sp.2
  let fr := splitOnFirst '#' nl.2
  let qu := splitOnFirst '?' fr.1
  let pp := if sp.1 ∈ usesParams then splitParams qu.1 else (qu.1, [])
  ⟨sp.1, nl.1, pp.1, pp.2, qu.2, fr.2⟩

/-- Python `s.rstrip('/')`. -/
def rstripSlashes (l : List Char) : List Char :=
  ((l.reverse).dropWhile (fun c => c = '/')).reverse

/-- Python `s.strip()` (whitespace from both ends). -/
def stripWs (l : List Char) : List Char :=
  (((l.dropWhile Char.isWhitespace).reverse).dropWhile Char.isWhitespace).reverse

/-- `WebCrawler._normalize_url` (src/url_to_markdown.py lines 130-145):
non-HTTP(S) schemes are returned unchanged; a root or empty path becomes
`/`; other paths have their trailing `'/'` characters stripped; the result
is reassembled as `scheme://netloc + path` with query and fragment dropped. -/
def normalize_url (url : List Char) : List Char :=
  let parsed := urlparse url
  if parsed.scheme = "http".toList ∨ parsed.scheme = "https".toList then
    let path := parsed.path
    let normPath := if path = [] ∨ path = ['/'] then ['/'] else rstripSlashes path
    parsed.scheme ++ "://".toList ++ parsed.netloc ++ normPath
  else url

/-- The normalisation applied inline by `WebsiteContentExtractor.parse_sitemap`
(src/url_to_markdown.py lines 452-460): same path rule as
`normalize_url`, but applied for every scheme — there is no HTTP(S) guard. -/
def sitemap_normalize (raw : List Char) : List Char :=
  let parsed := urlparse raw
  let path := parsed.path
  let normPath := if path = [] ∨ path = ['/'] then ['/'] else rstripSlashes path
  parsed.scheme ++ "://".toList ++ parsed.netloc ++ normPath

/-! ## XML document model

`xml.etree.ElementTree` elements, as the program uses them: a tag (which
carries the `"\x7bnamespace-uri\x7dlocal"` prefix form ElementTree produces
for namespaced documents), the element text, and the child elements.
`XForest` is a mutual inductive so that document-order iteration
(`Element.iter`) is a structural recursion. -/

mutual
inductive XTree where
  | elem (tag : List Char) (text : Option (List Char)) (children : XForest)
deriving DecidableEq, Repr
inductive XForest where
  | nil
  | cons (t : XTree) (ts : XForest)
deriving DecidableEq, Repr
end

def XForest.ofList : List XTree → XForest
  | [] => .nil
  | t :: ts => .cons t (XForest.ofList ts)

def XTree.tag : XTree → List Char
  | .elem t _ _ => t

def XTree.text : XTree → Option (List Char)
  | .elem _ x _ => x

def XTree.children : XTree → XForest
  | .elem _ _ cs => cs

/-- `elem.tag.split('}')[-1] if '}' in elem.tag else elem.tag`:
the part of the tag after the last `'\x7d'`. -/
def localName (tag : List Char) : List Char :=
  if ('}' : Char) ∈ tag then (tag.reverse.takeWhile (fun c => c ≠ '}')).reverse
  else tag

mutual
/-- `Element.iter()`: the element followed by its descendants in document
order. -/
def iterTree : XTree → List XTree
  | .elem t x cs => .elem t x cs :: iterForest cs
def iterForest : XForest → List XTree
  | .nil => []
  | .cons t ts => iterTree t ++ iterForest ts
end

/-- The `"\x7bhttp://www.sitemaps.org/schemas/sitemap/0.9\x7d"` prefix
ElementTree attaches to the tags of a document whose root declares the
sitemap default namespace. -/
def nsPrefix : List Char :=
  "\x7bhttp://www.sitemaps.org/schemas/sitemap/0.9\x7d".toList

def nsTag (t : List Char) : List Char := nsPrefix ++ t

/-- Truthiness of `child.text` in Python: not `None` and not the empty
string. -/
def textTruthy : Option (List Char) → Bool
  | none => false
  | some t => !t.isEmpty

/-! ## Sitemap Reader (`WebsiteContentExtractor.parse_sitemap`, lines 433-471) -/

/-- What `ET.parse(sitemap_path)` can encounter.  An empty file counts as
`malformed`: `ET.parse` raises `ParseError("no element found")` on it. -/
inductive SitemapFile where
  | ioError
  | malformed
  | parsedOk (root : XTree)
deriving DecidableEq, Repr

inductive Err where
  | ioError
  | parseError
  | requestException
  | httpError
  | noPages
  | noManualUrl
  | cancelled
deriving DecidableEq, Repr

/-- The `for child in elem` loop of `parse_sitemap`: the text of the first
`loc` child whose text is truthy (`if child_tag == 'loc' and child.text:
... break`); a `loc` child with empty or missing text does not stop the
scan. -/
def firstLocText : XForest → Option (List Char)
  | .nil => none
  | .cons c rest =>
    if localName c.tag = "loc".toList && textTruthy c.text then c.text
    else firstLocText rest

/-- The accumulation loop of `parse_sitemap`: walk `root.iter()`; for every
element whose local tag is `url`, take its first truthy `loc` child, strip
and normalise the text, and append it unless already present.  The
`seen`-set of the source always holds exactly the elements of `urls`, so a
single list with a membership test is the same state. -/
def parseSitemapTree (root : XTree) : List (List Char) :=
  (iterTree root).foldl
    (fun acc e =>
      if localName e.tag = "url".toList then
        match firstLocText e.children with
        | some raw =>
          let normalized := sitemap_normalize (stripWs raw)
          if normalized ∈ acc then acc else acc ++ [normalized]
        | none => acc
      else acc)
    []

/-- `WebsiteContentExtractor.parse_sitemap`: any exception from `ET.parse`
(I/O error or XML parse error) is logged and re-raised (line 471); a
successfully parsed document yields the collected URL list. -/
def parse_sitemap : SitemapFile → Except Err (List (List Char))
  | .ioError => .error .ioError
  | .malformed => .error .parseError
  | .parsedOk root => .ok (parseSitemapTree root)

/-! ## Crawler URL validity (`WebCrawler._is_valid_url`, lines 92-128) -/

/-- Crawler configuration relevant to the validity check: the domain
captured from the base URL and the robots.txt disallow list. -/
structure CrawlerCfg where
  domain : List Char
  disallowed : List (List Char)

/-- The `skip_extensions` list of `_is_valid_url` (lines 105-111). -/
def skipExtensions : List (List Char) :=
  [".jpg".toList, ".jpeg".toList, ".png".toList, ".gif".toList,
   ".svg".toList, ".ico".toList, ".pdf".toList, ".doc".toList,
   ".docx".toList, ".xls".toList, ".xlsx".toList, ".ppt".toList,
   ".pptx".toList, ".zip".toList, ".rar".toList, ".tar".toList,
   ".gz".toList, ".7z".toList, ".mp3".toList, ".mp4".toList,
   ".avi".toList, ".mov".toList, ".wmv".toList, ".css".toList,
   ".js".toList, ".json".toList, ".xml".toList, ".rss".toList,
   ".atom".toList]

/-- The `skip_paths` list of `_is_valid_url` (line 119). -/
def skipPaths : List (List Char) :=
  ["/wp-admin".toList, "/admin".toList, "/login".toList, "/logout".toList,
   "/api/".toList, "/feed/".toList, "/.well-known".toList]

/-- Python's `needle in haystack` substring test. -/
def containsSub (needle hay : List Char) : Bool :=
  hay.tails.any (fun t => needle.isPrefixOf t)

/-- `WebCrawler._is_allowed` (lines 84-90): the URL's path must not start
with any disallowed prefix. -/
def is_allowed (cfg : CrawlerCfg) (url : List Char) : Bool :=
  let path := (urlparse url).path
  cfg.disallowed.all (fun d => !(d.isPrefixOf path))

/-- `WebCrawler._is_valid_url` (lines 92-128): same domain, HTTP(S) scheme,
path (lowercased) not ending in a skip extension, path not containing any
`skip_paths` substring, and allowed by robots.txt. -/
def is_valid_url (cfg : CrawlerCfg) (url : List Char) : Bool :=
  let parsed := urlparse url
  if parsed.netloc ≠ cfg.domain then false
  else if ¬ (parsed.scheme = "http".toList ∨ parsed.scheme = "https".toList) then false
  else
    let pathLower := parsed.path.map Char.toLower
    if skipExtensions.any (fun ext => ext.isSuffixOf pathLower) then false
    else if skipPaths.any (fun skip => containsSub skip pathLower) then false
    else if ¬ is_allowed cfg url then false
    else true

/-! ## Sitemap download and index flattening
(`SitemapFinder.download_sitemap`, lines 334-352, and
`SitemapFinder._process_sitemap_index`, lines 354-411) -/

/-- The body of an HTTP response, as the program distinguishes them:
plain text that parses as XML, plain text that does not, and
gzip-compressed bytes (of a document whose XML tree would be `inner`) —
which, read as text, never parse as XML. -/
inductive HttpBody where
  | xmlText (root : XTree)
  | badText
  | gzipOf (inner : XTree)
deriving DecidableEq, Repr

/-- `ET.fromstring(response.text)`: `none` models a raised `ParseError`.
Gzip-compressed bytes decoded as text are not well-formed XML. -/
def etFromstring : HttpBody → Option XTree
  | .xmlText root => some root
  | .badText => none
  | .gzipOf _ => none

structure HResponse where
  status : Nat
  body : HttpBody
  /-- Whether the literal substring `sitemapindex` occurs in
  `response.text` (the check on line 342). -/
  hasSitemapindexSub : Bool
deriving DecidableEq, Repr

/-- The network: `none` models a raised `requests` exception. -/
abbrev Http := List Char → Option HResponse

/-- Writing `response.text` to the temporary file and later reading it back
with `ET.parse`: well-formed XML text round-trips; anything else (including
gzip bytes re-encoded as text) is a malformed file. -/
def savedFile : HttpBody → SitemapFile
  | .xmlText root => .parsedOk root
  | .badText => .malformed
  | .gzipOf _ => .malformed

/-- The loc-collection loop of `_process_sitemap_index` (lines 363-366):
every element anywhere in the index whose local tag is `loc` and whose text
is truthy contributes its stripped text. -/
def collectLocs (root : XTree) : List (List Char) :=
  (iterTree root).foldl
    (fun acc e =>
      if localName e.tag = "loc".toList && textTruthy e.text then
        acc ++ [stripWs (e.text.getD [])]
      else acc)
    []

/-- The `url_data` dictionary of `_process_sitemap_index`: insertion-ordered
keys, a later assignment to an existing key overwrites in place. -/
abbrev Dict := List (List Char × Option (List Char))

def dictInsert (d : Dict) (k : List Char) (v : Option (List Char)) : Dict :=
  if d.any (fun kv => kv.1 = k) then
    d.map (fun kv => if kv.1 = k then (k, v) else kv)
  else d ++ [(k, v)]

def dictHasLoc (d : Dict) : Bool :=
  d.any (fun kv => kv.1 = "loc".toList)

/-- The per-child-sitemap loop body (lines 377-386): for every element with
local tag `url`, collect its `loc`/`lastmod`/`changefreq`/`priority`
children into a dict; keep the dict only if it has a `loc` key. -/
def childDict : XForest → Dict → Dict
  | .nil, d => d
  | .cons c rest, d =>
    let ct := localName c.tag
    if ct = "loc".toList ∨ ct = "lastmod".toList ∨ ct = "changefreq".toList
        ∨ ct = "priority".toList then
      childDict rest (dictInsert d ct c.text)
    else childDict rest d

def urlElemsData (sroot : XTree) : List Dict :=
  (iterTree sroot).foldl
    (fun acc e =>
      if localName e.tag = "url".toList then
        let d := childDict e.children []
        if dictHasLoc d then acc ++ [d] else acc
      else acc)
    []

/-- Rebuilding the combined document (lines 392-403): a `urlset` root whose
`url` children carry one child element per truthy dict value, in dict
order.  The combined file declares the sitemap default namespace, so
re-parsing it namespaces every tag.  (The source interpolates the values
into XML without escaping; values containing markup characters are outside
this model.) -/
def buildCombined (ds : List Dict) : XTree :=
  XTree.elem (nsTag "urlset".toList) none
    (XForest.ofList (ds.map (fun d =>
      XTree.elem (nsTag "url".toList) none
        (XForest.ofList ((d.filter (fun kv => textTruthy kv.2)).map
          (fun kv => XTree.elem (nsTag kv.1) kv.2 XForest.nil))))))

/-- `SitemapFinder._process_sitemap_index` (lines 354-411): collect the
`loc` URLs, fetch each child (a fetch exception or non-200 status or XML
parse failure skips that child — there is no gzip decompression), gather
the `url` dicts, and rebuild one combined urlset document. -/
def process_sitemap_index (http : Http) (root : XTree) : XTree :=
  buildCombined
    ((collectLocs root).foldl
      (fun acc u =>
        match http u with
        | none => acc
        | some r =>
          if r.status = 200 then
            match etFromstring r.body with
            | some sroot => acc ++ urlElemsData sroot
            | none => acc
          else acc)
      [])

/-- `SitemapFinder.download_sitemap` (lines 334-352): fetch (exceptions
propagate), `raise_for_status` (4xx/5xx is a hard error), then either route
through the sitemap-index flattening (where `ET.fromstring` of the index
itself can raise) or save the body as the sitemap file. -/
def download_sitemap (http : Http) (url : List Char) : Except Err SitemapFile :=
  match http url with
  | none => .error .requestException
  | some r =>
    if 400 ≤ r.status then .error .httpError
    else if r.hasSitemapindexSub then
      match etFromstring r.body with
      | none => .error .parseError
      | some root => .ok (.parsedOk (process_sitemap_index http root))
    else .ok (savedFile r.body)

/-! ## Crawler (`WebCrawler.crawl`, lines 166-206) -/

structure CrawlConfig where
  maxDepth : Nat
  maxPages : Nat
deriving DecidableEq, Repr

structure CrawlState where
  queue : List (List Char × Nat)
  visited : List (List Char)
  discovered : List (List Char)
deriving DecidableEq, Repr

/-- One page fetch during the crawl.  `some links` models an HTTP 200
response with a `text/html` content type whose `_extract_links` output is
`links` (already resolved, query/fragment-stripped, normalised and
validity-filtered, lines 147-164); `none` collapses every other case — a
raised exception, a non-200 status, or a non-HTML content type — in all of
which the loop body records nothing. -/
abbrev Fetch := List Char → Option (List (List Char))

/-- The link loop of lines 193-196: enqueue each link not yet in the
visited set, adding it to the visited set at the moment it is enqueued. -/
def enqueueAll (d : Nat) (links : List (List Char)) (st : CrawlState) : CrawlState :=
  links.foldl
    (fun s link =>
      if link ∈ s.visited then s
      else { queue := s.queue ++ [(link, d)],
             visited := s.visited ++ [link],
             discovered := s.discovered })
    st

/-- The loop body for a dequeued `(u, d)` (lines 178-203): a dequeued entry
deeper than `max_depth` is discarded; a failed or non-HTML fetch records
nothing; otherwise the URL is appended to the discovered list and, when
`d < max_depth`, its links are enqueued at depth `d + 1`. -/
def crawlStep (fetch : Fetch) (cfg : CrawlConfig) (u : List Char) (d : Nat)
    (rest : List (List Char × Nat)) (st : CrawlState) : CrawlState :=
  if cfg.maxDepth < d then { st with queue := rest }
  else
    match fetch u with
    | none => { st with queue := rest }
    | some links =>
      let st1 : CrawlState :=
        { queue := rest, visited := st.visited, discovered := st.discovered ++ [u] }
      if d < cfg.maxDepth then enqueueAll (d + 1) links st1 else st1

/-- The crawl loop `while queue and len(discovered_urls) < max_pages`
(line 177), with explicit fuel; `none` means the fuel ran out before the
loop exited on its own. -/
def crawlLoop (fetch : Fetch) (cfg : CrawlConfig) : Nat → CrawlState → Option CrawlState
  | 0, _ => none
  | Nat.succ f, st =>
    match st.queue with
    | [] => some st
    | (u, d) :: rest =>
      if cfg.maxPages ≤ st.discovered.length then some st
      else crawlLoop fetch cfg f (crawlStep fetch cfg u d rest st)

/-- Lines 172-174: the start URL is the normalised, slash-stripped base
URL, enqueued at depth 0 and marked visited at once. -/
def crawlInit (base : List Char) : CrawlState :=
  let start := normalize_url (rstripSlashes base)
  { queue := [(start, 0)], visited := [start], discovered := [] }

/-- `WebCrawler.generate_sitemap` (lines 208-231), as re-parsed from the
file it writes: a namespaced urlset whose entries carry the URL plus
stamped `lastmod`/`changefreq`/`priority` children (the `lastmod` date is
modelled by an opaque nonempty date string). -/
def generate_sitemap (urls : List (List Char)) : XTree :=
  XTree.elem (nsTag "urlset".toList) none
    (XForest.ofList (urls.map (fun u =>
      XTree.elem (nsTag "url".toList) none
        (XForest.ofList
          [XTree.elem (nsTag "loc".toList) (some u) XForest.nil,
           XTree.elem (nsTag "lastmod".toList) (some "2025-01-01".toList) XForest.nil,
           XTree.elem (nsTag "changefreq".toList) (some "weekly".toList) XForest.nil,
           XTree.elem (nsTag "priority".toList) (some "0.5".toList) XForest.nil]))))

/-! ## Orchestrator (`WebsiteContentExtractor.process_website`, lines 565-675)

The model covers the discovery control flow: locating, downloading and
parsing the sitemap, and the interactive fallback.  Content extraction and
file writing are external collaborators and are omitted; the outcome
records the URL list handed to extraction together with the
`sitemap_source` provenance tag. -/

/-- The values `sitemap_source` takes in the code: `'found'`,
`'generated'`, `'manual'` (lines 578, 601, 610). -/
inductive Provenance where
  | found
  | generated
  | manual
deriving DecidableEq, Repr

/-- The inputs `process_website` consumes from its environment:
the result of `finder.find_sitemap_url()`, the network (driving
`finder.download_sitemap`), the two `input()` answers (already
`.strip()`-ed, as the code strips them), and what `crawler.crawl()` would
return. -/
structure ProcEnv where
  findResult : Option (List Char)
  http : Http
  choice : List Char
  manualUrl : List Char
  crawlUrls : List (List Char)

deriving instance DecidableEq for Except

structure ProcResult where
  /-- Whether the three-way fallback menu was printed and `input()` read
  (lines 582-588). -/
  promptShown : Bool
  /-- Whether `WebCrawler(...).crawl()` was run (lines 595-596). -/
  crawlerRan : Bool
  outcome : Except Err (List (List Char) × Provenance)
deriving DecidableEq, Repr

/-- `if limit: urls = urls[:limit]` (lines 639-640); a limit of `0` is
falsy in Python and leaves the list whole. -/
def applyLimit (limit : Option Nat) (l : List (List Char)) : List (List Char) :=
  match limit with
  | some k => if k ≠ 0 then l.take k else l
  | none => l

/-- `WebsiteContentExtractor.process_website` (lines 565-675).  When a
sitemap URL is found it is downloaded and parsed, and the parsed list
(limited) is used with provenance `found` — the crawler is never consulted
on this path, and download or parse errors propagate.  Only when no sitemap
URL is found is the three-way menu shown: choice `1` crawls (failing when
zero pages are discovered), choice `2` downloads a manually supplied URL
(failing when the answer is empty), anything else raises the
user-cancellation error. -/
def process_website (env : ProcEnv) (limit : Option Nat) : ProcResult :=
  match env.findResult with
  | some smUrl =>
    match download_sitemap env.http smUrl with
    | .error e => ⟨false, false, .error e⟩
    | .ok file =>
      match parse_sitemap file with
      | .error e => ⟨false, false, .error e⟩
      | .ok urls => ⟨false, false, .ok (applyLimit limit urls, .found)⟩
  | none =>
    if env.choice = "1".toList then
      if env.crawlUrls ≠ [] then
        match parse_sitemap (.parsedOk (generate_sitemap env.crawlUrls)) with
        | .error e => ⟨true, true, .error e⟩
        | .ok urls => ⟨true, true, .ok (applyLimit limit urls, .generated)⟩
      else ⟨true, true, .error .noPages⟩
    else if env.choice = "2".toList then
      if env.manualUrl ≠ [] then
        match download_sitemap env.http env.manualUrl with
        | .error e => ⟨true, false, .error e⟩
        | .ok file =>
          match parse_sitemap file with
          | .error e => ⟨true, false, .error e⟩
          | .ok urls => ⟨true, false, .ok (applyLimit limit urls, .manual)⟩
      else ⟨true, false, .error .noManualUrl⟩
    else ⟨true, false, .error .cancelled⟩

/-! ## List helper lemmas -/

theorem mem_takeWhile_pred {α : Type} {p : α → Bool} {l : List α} {c : α}
    (h : c ∈ l.takeWhile p) : p c = true := by
  induction l with
  | nil => simp [List.takeWhile] at h
  | cons x xs ih =>
    cases hpx : p x with
    | true =>
      rw [List.takeWhile_cons_of_pos hpx] at h
      rcases List.mem_cons.mp h with rfl | h2
      · exact hpx
      · exact ih h2
    | false =>
      rw [List.takeWhile_cons_of_neg (by simp [hpx])] at h
      cases h

theorem takeWhile_eq_self_of_all {α : Type} {p : α → Bool} {l : List α}
    (h : ∀ c ∈ l, p c = true) : l.takeWhile p = l := by
  induction l with
  | nil => rfl
  | cons x xs ih =>
    rw [List.takeWhile_cons_of_pos (h x (List.mem_cons_self x xs))]
    rw [ih (fun c hc => h c (List.mem_cons_of_mem x hc))]

theorem dropWhile_eq_nil_of_all {α : Type} {p : α → Bool} {l : List α}
    (h : ∀ c ∈ l, p c = true) : l.dropWhile p = [] := by
  induction l with
  | nil => rfl
  | cons x xs ih =>
    rw [List.dropWhile_cons_of_pos (h x (List.mem_cons_self x xs))]
    exact ih (fun c hc => h c (List.mem_cons_of_mem x hc))

theorem dropWhile_dropWhile {α : Type} {p : α → Bool} (l : List α) :
    (l.dropWhile p).dropWhile p = l.dropWhile p := by
  cases h : l.dropWhile p with
  | nil => rfl
  | cons c t =>
    have hh := List.head?_dropWhile_not p l
    rw [h] at hh
    simp only [List.head?_cons] at hh
    exact List.dropWhile_cons_of_neg (by simp [hh])

/-- `rstripSlashes` is idempotent. -/
theorem rstripSlashes_idem (l : List Char) :
    rstripSlashes (rstripSlashes l) = rstripSlashes l := by
  unfold rstripSlashes
  rw [List.reverse_reverse, dropWhile_dropWhile]

/-- `rstripSlashes l` is a prefix of `l`. -/
theorem rstripSlashes_prefix (l : List Char) : rstripSlashes l <+: l := by
  refine ⟨(l.reverse.takeWhile (fun c => c = '/')).reverse, ?_⟩
  unfold rstripSlashes
  calc (l.reverse.dropWhile (fun c => c = '/')).reverse
        ++ (l.reverse.takeWhile (fun c => c = '/')).reverse
      = (l.reverse.takeWhile (fun c => c = '/')
          ++ l.reverse.dropWhile (fun c => c = '/')).reverse :=
        (List.reverse_append _ _).symm
    _ = l.reverse.reverse := by rw [List.takeWhile_append_dropWhile]
    _ = l := List.reverse_reverse l

/-- The result of `rstripSlashes` never ends with `'/'`, so in particular it
is never `['/']`. -/
theorem rstripSlashes_ne_slash (l : List Char) : rstripSlashes l ≠ ['/'] := by
  intro h
  unfold rstripSlashes at h
  have hrev : l.reverse.dropWhile (fun c => c = '/') = ['/'] := by
    have := congrArg List.reverse h
    rwa [List.reverse_reverse] at this
  have hh := List.head?_dropWhile_not (fun c => c = '/') l.reverse
  rw [hrev] at hh
  simp at hh

theorem head?_of_prefix_ne_nil {α : Type} {l₁ l₂ : List α} (h : l₁ <+: l₂)
    (hne : l₁ ≠ []) : l₂.head? = l₁.head? := by
  rcases h with ⟨t, rfl⟩
  cases l₁ with
  | nil => exact absurd rfl hne
  | cons x xs => rfl

theorem splitLastSlash_eq {l a b : List Char}
    (h : splitLastSlash l = some (a, b)) : l = a ++ '/' :: b := by
  induction l generalizing a b with
  | nil => simp [splitLastSlash] at h
  | cons c cs ih =>
    rw [splitLastSlash] at h
    cases hcs : splitLastSlash cs with
    | some ab =>
      rw [hcs] at h
      cases ab with
      | mk a' b' =>
        simp only [Option.some.injEq, Prod.mk.injEq] at h
        rcases h with ⟨h1, h2⟩
        rw [← h1, ← h2]
        have := ih (a := a') (b := b') (by rw [hcs])
        rw [List.cons_append, ← this]
    | none =>
      rw [hcs] at h
      by_cases hc : c = '/'
      · rw [if_pos hc] at h
        simp only [Option.some.injEq, Prod.mk.injEq] at h
        rcases h with ⟨h1, h2⟩
        rw [← h1, ← h2, hc]
        rfl
      · rw [if_neg hc] at h
        cases h

theorem splitParams_eq_some {p a b : List Char}
    (hsl : splitLastSlash p = some (a, b)) :
    splitParams p =
      if (';' : Char) ∈ b then
        (a ++ '/' :: b.takeWhile (fun x => x ≠ ';'),
         (b.dropWhile (fun x => x ≠ ';')).drop 1)
      else (p, []) := by
  unfold splitParams
  rw [hsl]

theorem splitParams_eq_none {p : List Char}
    (hsl : splitLastSlash p = none) :
    splitParams p =
      if (';' : Char) ∈ p then
        (p.takeWhile (fun x => x ≠ ';'), (p.dropWhile (fun x => x ≠ ';')).drop 1)
      else (p, []) := by
  unfold splitParams
  rw [hsl]

theorem mem_splitParams_fst {p : List Char} {c : Char}
    (h : c ∈ (splitParams p).1) : c ∈ p := by
  cases hsl : splitLastSlash p with
  | some ab =>
    cases ab with
    | mk a b =>
      have hp : p = a ++ '/' :: b := splitLastSlash_eq hsl
      rw [splitParams_eq_some hsl] at h
      by_cases hb : (';' : Char) ∈ b
      · rw [if_pos hb] at h
        simp only at h
        rw [hp]
        rcases List.mem_append.mp h with ha | hrest
        · exact List.mem_append.mpr (Or.inl ha)
        · rcases List.mem_cons.mp hrest with rfl | htw
          · exact List.mem_append.mpr (Or.inr (List.mem_cons_self _ _))
          · exact List.mem_append.mpr (Or.inr (List.mem_cons_of_mem _
              ((List.takeWhile_sublist _).subset htw)))
      · rw [if_neg hb] at h
        exact h
  | none =>
    rw [splitParams_eq_none hsl] at h
    by_cases hb : (';' : Char) ∈ p
    · rw [if_pos hb] at h
      exact (List.takeWhile_sublist _).subset h
    · rw [if_neg hb] at h
      exact h

/-! ## Structural properties of the `urlparse` model -/

theorem urlparse_netloc (u : List Char) :
    (urlparse u).netloc = (splitNetloc (splitScheme u).2).1 := rfl

theorem netloc_chars (u : List Char) :
    ∀ c ∈ (urlparse u).netloc, netlocChar c = true := by
  intro c hc
  rw [urlparse_netloc] at hc
  unfold splitNetloc at hc
  by_cases h2 : ((splitScheme u).2).take 2 = "//".toList
  · rw [if_pos h2] at hc
    exact mem_takeWhile_pred hc
  · rw [if_neg h2] at hc
    cases hc

theorem urlparse_path (u : List Char) :
    (urlparse u).path =
      (if (splitScheme u).1 ∈ usesParams then
        splitParams (splitOnFirst '?' (splitOnFirst '#' (splitNetloc (splitScheme u).2).2).1).1
      else ((splitOnFirst '?' (splitOnFirst '#' (splitNetloc (splitScheme u).2).2).1).1, [])).1 := by
  unfold urlparse
  by_cases h : (splitScheme u).1 ∈ usesParams <;> simp [h]

theorem path_chars (u : List Char) :
    ∀ c ∈ (urlparse u).path, c ≠ '#' ∧ c ≠ '?' := by
  intro c hc
  rw [urlparse_path] at hc
  have hq : c ∈ (splitOnFirst '?' (splitOnFirst '#' (splitNetloc (splitScheme u).2).2).1).1 := by
    by_cases h : (splitScheme u).1 ∈ usesParams
    · rw [if_pos h] at hc
      exact mem_splitParams_fst hc
    · rw [if_neg h] at hc
      exact hc
  have hnq : c ≠ '?' := by
    have := mem_takeWhile_pred hq
    simpa using this
  have hf : c ∈ (splitOnFirst '#' (splitNetloc (splitScheme u).2).2).1 :=
    (List.takeWhile_sublist _).subset hq
  have hnf : c ≠ '#' := by
    have := mem_takeWhile_pred hf
    simpa using this
  exact ⟨hnf, hnq⟩

/-! ## Re-parsing a reassembled canonical URL -/

theorem splitScheme_scheme (s R : List Char)
    (hs : s = "http".toList ∨ s = "https".toList) :
    splitScheme (s ++ ':' :: R) = (s, R) := by
  have htw : List.takeWhile (fun c => c ≠ ':') (s ++ ':' :: R) = s := by
    rw [List.takeWhile_append_of_pos (by rcases hs with rfl | rfl <;> decide)]
    rw [List.takeWhile_cons_of_neg (by decide), List.append_nil]
  have hsplit : s ++ ':' :: R = (s ++ [':']) ++ R := by simp
  have hdrop : (s ++ ':' :: R).drop (s.length + 1) = R := by
    rw [hsplit, show s.length + 1 = (s ++ [':']).length by simp, List.drop_left]
  simp only [splitScheme, htw]
  rw [if_pos, hdrop]
  · rw [show s.map Char.toLower = s by rcases hs with rfl | rfl <;> decide]
  · simp only [Bool.and_eq_true, decide_eq_true_eq]
    refine ⟨⟨⟨?_, ?_⟩, ?_⟩, ?_⟩
    · simp only [List.length_append, List.length_cons]
      omega
    · rcases hs with rfl | rfl <;> decide
    · rcases hs with rfl | rfl <;> decide
    · rcases hs with rfl | rfl <;> decide

/-- Re-parsing `scheme://netloc + path` recovers the three components, for
an HTTP(S) scheme, a netloc free of `/?#`, and a path that starts with `/`,
contains no `#`/`?`, and is untouched by the params split. -/
theorem urlparse_reassembled (s n np : List Char)
    (hs : s = "http".toList ∨ s = "https".toList)
    (hn : ∀ c ∈ n, netlocChar c = true)
    (hnp : np.head? = some '/')
    (hspec : ∀ c ∈ np, c ≠ '#' ∧ c ≠ '?')
    (hparams : splitParams np = (np, [])) :
    urlparse (s ++ "://".toList ++ n ++ np) = ⟨s, n, np, [], [], []⟩ := by
  have hshape : s ++ "://".toList ++ n ++ np = s ++ ':' :: ('/' :: '/' :: (n ++ np)) := by
    rw [show "://".toList = [':', '/', '/'] from rfl]
    simp [List.append_assoc]
  rcases np with _ | ⟨c, t⟩
  · cases hnp
  obtain rfl : c = '/' := by simpa using hnp
  have hnl : splitNetloc ('/' :: '/' :: (n ++ '/' :: t)) = (n, '/' :: t) := by
    unfold splitNetloc
    rw [if_pos (show List.take 2 ('/' :: '/' :: (n ++ '/' :: t)) = "//".toList from rfl)]
    rw [show List.drop 2 ('/' :: '/' :: (n ++ '/' :: t)) = n ++ '/' :: t from rfl]
    rw [List.takeWhile_append_of_pos hn, List.takeWhile_cons_of_neg (by decide),
      List.append_nil, List.dropWhile_append_of_pos hn,
      List.dropWhile_cons_of_neg (by decide)]
  have hfr : splitOnFirst '#' ('/' :: t) = ('/' :: t, []) := by
    unfold splitOnFirst
    rw [takeWhile_eq_self_of_all (fun c hc => by
        simpa using (hspec c hc).1),
      dropWhile_eq_nil_of_all (fun c hc => by
        simpa using (hspec c hc).1)]
    rfl
  have hqu : splitOnFirst '?' ('/' :: t) = ('/' :: t, []) := by
    unfold splitOnFirst
    rw [takeWhile_eq_self_of_all (fun c hc => by
        simpa using (hspec c hc).2),
      dropWhile_eq_nil_of_all (fun c hc => by
        simpa using (hspec c hc).2)]
    rfl
  rw [hshape]
  unfold urlparse
  rw [splitScheme_scheme s _ hs]
  simp only [hnl, hfr, hqu]
  rw [if_pos (by rcases hs with rfl | rfl <;> decide)]
  rw [hparams]

/-- Parsed paths for which one round of the normalisation's path rule is
already stable under re-parsing: the empty and root paths, and slash-led
paths that do not collapse to nothing when trailing slashes are stripped
and whose stripped form does not split off `;params`. -/
def stableNormPath (path : List Char) : Prop :=
  path = [] ∨ path = ['/'] ∨
  (path.head? = some '/' ∧ rstripSlashes path ≠ [] ∧
   splitParams (rstripSlashes path) = (rstripSlashes path, []))

instance (path : List Char) : Decidable (stableNormPath path) := by
  unfold stableNormPath
  infer_instance

/-! ## Crawl-loop invariants and termination measure -/

/-- Invariant of the crawl loop: the discovered list and the queued URLs
are jointly duplicate-free, and every one of them is in the visited set. -/
def crawlInv (st : CrawlState) : Prop :=
  (st.discovered ++ st.queue.map Prod.fst).Nodup ∧
  ∀ u ∈ st.discovered ++ st.queue.map Prod.fst, u ∈ st.visited

theorem crawlInv_push (st : CrawlState) (link : List Char) (d : Nat)
    (h : crawlInv st) :
    crawlInv (if link ∈ st.visited then st
      else { queue := st.queue ++ [(link, d)], visited := st.visited ++ [link], discovered := st.discovered }) := by
  by_cases hv : link ∈ st.visited
  · rw [if_pos hv]
    exact h
  · rw [if_neg hv]
    rcases h with ⟨hnd, hmem⟩
    have hkey : st.discovered ++ (st.queue ++ [(link, d)]).map Prod.fst
        = (st.discovered ++ st.queue.map Prod.fst) ++ [link] := by
      simp
    constructor
    · show ((st.discovered ++ (st.queue ++ [(link, d)]).map Prod.fst)).Nodup
      rw [hkey]
      rw [List.nodup_append]
      refine ⟨hnd, List.nodup_singleton link, ?_⟩
      intro a ha hb
      rcases List.mem_singleton.mp hb with rfl
      exact hv (hmem a ha)
    · intro u hu
      rw [hkey] at hu
      rcases List.mem_append.mp hu with h1 | h2
      · exact List.mem_append.mpr (Or.inl (hmem u h1))
      · exact List.mem_append.mpr (Or.inr h2)

theorem crawlInv_enqueueAll (d : Nat) (links : List (List Char)) :
    ∀ st : CrawlState, crawlInv st → crawlInv (enqueueAll d links st) := by
  induction links with
  | nil => intro st h; exact h
  | cons l ls ih =>
    intro st h
    have h1 := crawlInv_push st l d h
    show crawlInv (enqueueAll d ls _)
    exact ih _ h1

theorem crawlInv_step (fetch : Fetch) (cfg : CrawlConfig) (u : List Char)
    (d : Nat) (rest : List (List Char × Nat)) (st : CrawlState)
    (hq : st.queue = (u, d) :: rest) (h : crawlInv st) :
    crawlInv (crawlStep fetch cfg u d rest st) := by
  rcases h with ⟨hnd, hmem⟩
  have hsub : List.Sublist (st.discovered ++ rest.map Prod.fst)
      (st.discovered ++ st.queue.map Prod.fst) := by
    rw [hq]
    exact (List.append_sublist_append_left _).mpr (List.sublist_cons_self _ _)
  have hrest : crawlInv { st with queue := rest } := by
    constructor
    · exact hnd.sublist hsub
    · intro x hx
      exact hmem x (hsub.subset hx)
  have hstep : st.discovered ++ [u] ++ rest.map Prod.fst
      = st.discovered ++ st.queue.map Prod.fst := by
    rw [hq]
    simp
  have hst1 : crawlInv
      { queue := rest, visited := st.visited, discovered := st.discovered ++ [u] } := by
    constructor
    · show (st.discovered ++ [u] ++ rest.map Prod.fst).Nodup
      rw [hstep]
      exact hnd
    · intro x hx
      rw [hstep] at hx
      exact hmem x hx
  unfold crawlStep
  by_cases h1 : cfg.maxDepth < d
  · rw [if_pos h1]
    exact hrest
  · rw [if_neg h1]
    cases hf : fetch u with
    | none => exact hrest
    | some links =>
      by_cases h2 : d < cfg.maxDepth
      · simp only [h2, if_true]
        exact crawlInv_enqueueAll _ _ _ hst1
      · simp only [h2, if_false]
        exact hst1

theorem crawlLoop_succ_nil (fetch : Fetch) (cfg : CrawlConfig) (f : Nat)
    (st : CrawlState) (h : st.queue = []) :
    crawlLoop fetch cfg (f + 1) st = some st := by
  rw [crawlLoop, h]

theorem crawlLoop_succ_cons (fetch : Fetch) (cfg : CrawlConfig) (f : Nat)
    (st : CrawlState) (u : List Char) (d : Nat) (rest : List (List Char × Nat))
    (h : st.queue = (u, d) :: rest) :
    crawlLoop fetch cfg (f + 1) st =
      if cfg.maxPages ≤ st.discovered.length then some st
      else crawlLoop fetch cfg f (crawlStep fetch cfg u d rest st) := by
  rw [crawlLoop, h]

theorem crawlInv_loop (fetch : Fetch) (cfg : CrawlConfig) :
    ∀ (fuel : Nat) (st st' : CrawlState),
      crawlLoop fetch cfg fuel st = some st' → crawlInv st → crawlInv st' := by
  intro fuel
  induction fuel with
  | zero => intro st st' h; cases h
  | succ f ih =>
    intro st st' h hinv
    cases hq : st.queue with
    | nil =>
      rw [crawlLoop_succ_nil fetch cfg f st hq] at h
      cases h
      exact hinv
    | cons p rest =>
      obtain ⟨u, d⟩ := p
      rw [crawlLoop_succ_cons fetch cfg f st u d rest hq] at h
      by_cases hcap : cfg.maxPages ≤ st.discovered.length
      · rw [if_pos hcap] at h
        cases h
        exact hinv
      · rw [if_neg hcap] at h
        exact ih _ _ h (crawlInv_step fetch cfg u d rest st hq hinv)

/-- Weight of a frontier entry for the termination measure: entries nearer
the depth limit weigh less. -/
def entryWeight (cfg : CrawlConfig) (L : Nat) (p : List Char × Nat) : Nat :=
  (L + 1) ^ (cfg.maxDepth + 1 - p.2)

/-- Termination potential of a frontier. -/
def phiQ (cfg : CrawlConfig) (L : Nat) (q : List (List Char × Nat)) : Nat :=
  (q.map (entryWeight cfg L)).sum

theorem phiQ_append (cfg : CrawlConfig) (L : Nat) (q₁ q₂ : List (List Char × Nat)) :
    phiQ cfg L (q₁ ++ q₂) = phiQ cfg L q₁ + phiQ cfg L q₂ := by
  unfold phiQ
  rw [List.map_append, List.sum_append]

theorem phiQ_push_le (cfg : CrawlConfig) (L : Nat) (d : Nat)
    (s : CrawlState) (link : List Char) :
    phiQ cfg L ((if link ∈ s.visited then s
      else { queue := s.queue ++ [(link, d)], visited := s.visited ++ [link], discovered := s.discovered }).queue)
      ≤ phiQ cfg L s.queue + (L + 1) ^ (cfg.maxDepth + 1 - d) := by
  by_cases hv : link ∈ s.visited
  · rw [if_pos hv]
    exact Nat.le_add_right _ _
  · rw [if_neg hv]
    show phiQ cfg L (s.queue ++ [(link, d)]) ≤ _
    rw [phiQ_append]
    exact Nat.le_refl _

theorem phiQ_enqueueAll_le (cfg : CrawlConfig) (L : Nat) (d : Nat)
    (links : List (List Char)) :
    ∀ s : CrawlState,
      phiQ cfg L (enqueueAll d links s).queue
        ≤ phiQ cfg L s.queue + links.length * (L + 1) ^ (cfg.maxDepth + 1 - d) := by
  induction links with
  | nil =>
    intro s
    simp [enqueueAll]
  | cons l ls ih =>
    intro s
    have h1 := phiQ_push_le cfg L d s l
    have h2 := ih (if l ∈ s.visited then s
      else { queue := s.queue ++ [(l, d)], visited := s.visited ++ [l], discovered := s.discovered })
    calc phiQ cfg L (enqueueAll d (l :: ls) s).queue
        ≤ phiQ cfg L ((if l ∈ s.visited then s
            else { queue := s.queue ++ [(l, d)], visited := s.visited ++ [l], discovered := s.discovered }).queue)
            + ls.length * (L + 1) ^ (cfg.maxDepth + 1 - d) := h2
      _ ≤ phiQ cfg L s.queue + (L + 1) ^ (cfg.maxDepth + 1 - d)
            + ls.length * (L + 1) ^ (cfg.maxDepth + 1 - d) :=
          Nat.add_le_add_right h1 _
      _ = phiQ cfg L s.queue + (l :: ls).length * (L + 1) ^ (cfg.maxDepth + 1 - d) := by
          rw [List.length_cons, Nat.succ_mul]
          omega

theorem enqueueAll_discovered (d : Nat) (links : List (List Char)) :
    ∀ s : CrawlState, (enqueueAll d links s).discovered = s.discovered := by
  induction links with
  | nil => intro s; rfl
  | cons l ls ih =>
    intro s
    show (enqueueAll d ls _).discovered = _
    rw [ih]
    by_cases hv : l ∈ s.visited <;> simp [hv]

theorem crawlStep_phi_lt (fetch : Fetch) (cfg : CrawlConfig) (L : Nat)
    (u : List Char) (d : Nat) (rest : List (List Char × Nat)) (st : CrawlState)
    (hq : st.queue = (u, d) :: rest)
    (hL : ∀ v ls, fetch v = some ls → ls.length ≤ L) :
    phiQ cfg L (crawlStep fetch cfg u d rest st).queue < phiQ cfg L st.queue := by
  have hsplit : phiQ cfg L st.queue
      = (L + 1) ^ (cfg.maxDepth + 1 - d) + phiQ cfg L rest := by
    rw [hq]
    unfold phiQ entryWeight
    rw [List.map_cons, List.sum_cons]
  have hwpos : 0 < (L + 1) ^ (cfg.maxDepth + 1 - d) :=
    Nat.pos_pow_of_pos _ (Nat.succ_pos L)
  unfold crawlStep
  by_cases h1 : cfg.maxDepth < d
  · rw [if_pos h1]
    show phiQ cfg L rest < _
    omega
  · rw [if_neg h1]
    cases hf : fetch u with
    | none =>
      show phiQ cfg L rest < _
      omega
    | some links =>
      by_cases h2 : d < cfg.maxDepth
      · simp only [h2, if_true]
        have hb := phiQ_enqueueAll_le cfg L (d + 1) links
          { queue := rest, visited := st.visited, discovered := st.discovered ++ [u] }
        have hlen : links.length ≤ L := hL u links hf
        have hexp : cfg.maxDepth + 1 - (d + 1) = cfg.maxDepth - d := by omega
        have hexp2 : cfg.maxDepth + 1 - d = (cfg.maxDepth - d) + 1 := by omega
        have hkey : links.length * (L + 1) ^ (cfg.maxDepth + 1 - (d + 1))
            < (L + 1) ^ (cfg.maxDepth + 1 - d) := by
          rw [hexp, hexp2, pow_succ]
          have hp : 0 < (L + 1) ^ (cfg.maxDepth - d) :=
            Nat.pos_pow_of_pos _ (Nat.succ_pos L)
          calc links.length * (L + 1) ^ (cfg.maxDepth - d)
              ≤ L * (L + 1) ^ (cfg.maxDepth - d) :=
                Nat.mul_le_mul_right _ hlen
            _ < (L + 1) * (L + 1) ^ (cfg.maxDepth - d) :=
                Nat.mul_lt_mul_of_lt_of_le (Nat.lt_succ_self L) (Nat.le_refl _) hp
            _ = (L + 1) ^ (cfg.maxDepth - d) * (L + 1) := Nat.mul_comm _ _
        have hb2 : phiQ cfg L (enqueueAll (d + 1) links
            { queue := rest, visited := st.visited, discovered := st.discovered ++ [u] }).queue
            ≤ phiQ cfg L rest + links.length * (L + 1) ^ (cfg.maxDepth + 1 - (d + 1)) := hb
        omega
      · simp only [h2, if_false]
        show phiQ cfg L rest < _
        omega

theorem crawlLoop_isSome (fetch : Fetch) (cfg : CrawlConfig) (L : Nat)
    (hL : ∀ v ls, fetch v = some ls → ls.length ≤ L) :
    ∀ (fuel : Nat) (st : CrawlState), phiQ cfg L st.queue < fuel →
      (crawlLoop fetch cfg fuel st).isSome := by
  intro fuel
  induction fuel with
  | zero => intro st h; cases h
  | succ f ih =>
    intro st hphi
    cases hq : st.queue with
    | nil =>
      rw [crawlLoop_succ_nil fetch cfg f st hq]
      rfl
    | cons p rest =>
      obtain ⟨u, d⟩ := p
      rw [crawlLoop_succ_cons fetch cfg f st u d rest hq]
      by_cases hcap : cfg.maxPages ≤ st.discovered.length
      · rw [if_pos hcap]
        rfl
      · rw [if_neg hcap]
        apply ih
        have := crawlStep_phi_lt fetch cfg L u d rest st hq hL
        omega

theorem crawlStep_discovered_le (fetch : Fetch) (cfg : CrawlConfig)
    (u : List Char) (d : Nat) (rest : List (List Char × Nat)) (st : CrawlState) :
    (crawlStep fetch cfg u d rest st).discovered.length
      ≤ st.discovered.length + 1 := by
  unfold crawlStep
  by_cases h1 : cfg.maxDepth < d
  · rw [if_pos h1]
    exact Nat.le_succ_of_le (Nat.le_refl _)
  · rw [if_neg h1]
    cases hf : fetch u with
    | none => exact Nat.le_succ_of_le (Nat.le_refl _)
    | some links =>
      by_cases h2 : d < cfg.maxDepth
      · simp only [h2, if_true]
        rw [enqueueAll_discovered]
        simp
      · simp only [h2, if_false]
        simp

theorem crawlLoop_final (fetch : Fetch) (cfg : CrawlConfig) :
    ∀ (fuel : Nat) (st st' : CrawlState),
      crawlLoop fetch cfg fuel st = some st' →
      st.discovered.length ≤ cfg.maxPages →
      st'.discovered.length ≤ cfg.maxPages ∧
        (st'.queue = [] ∨ cfg.maxPages ≤ st'.discovered.length) := by
  intro fuel
  induction fuel with
  | zero => intro st st' h; cases h
  | succ f ih =>
    intro st st' h hle
    cases hq : st.queue with
    | nil =>
      rw [crawlLoop_succ_nil fetch cfg f st hq] at h
      cases h
      exact ⟨hle, Or.inl hq⟩
    | cons p rest =>
      obtain ⟨u, d⟩ := p
      rw [crawlLoop_succ_cons fetch cfg f st u d rest hq] at h
      by_cases hcap : cfg.maxPages ≤ st.discovered.length
      · rw [if_pos hcap] at h
        cases h
        exact ⟨hle, Or.inr hcap⟩
      · rw [if_neg hcap] at h
        apply ih _ _ h
        have := crawlStep_discovered_le fetch cfg u d rest st
        omega

/-! ## Concrete documents and environments used by the claim theorems -/

/-- A sitemap `url` entry holding one `loc` child, with namespaced tags as
ElementTree yields them for a namespace-declaring urlset. -/
def locUrl (s : String) : XTree :=
  XTree.elem (nsTag "url".toList) none
    (XForest.ofList [XTree.elem (nsTag "loc".toList) (some s.toList) XForest.nil])

/-- The six-entry urlset of the trailing-slash deduplication test. -/
def dedupDoc : XTree :=
  XTree.elem (nsTag "urlset".toList) none
    (XForest.ofList
      [locUrl "https://example.com", locUrl "https://example.com/",
       locUrl "https://example.com/docs", locUrl "https://example.com/docs/",
       locUrl "https://example.com/blog/", locUrl "https://example.com/blog"])

/-- Crawler configuration for the `shopify.dev` validity-check scenario
(robots.txt unavailable, so the disallow list is empty). -/
def shopifyCfg : CrawlerCfg := ⟨"shopify.dev".toList, []⟩

/-- The child sitemap of the gzip scenario: a urlset with two `loc`
entries, served gzip-compressed. -/
def gzChildDoc : XTree :=
  XTree.elem (nsTag "urlset".toList) none
    (XForest.ofList [locUrl "https://shopify.dev/docs/api/admin-graphql",
                     locUrl "https://shopify.dev/docs/apps"])

/-- A sitemap index referencing the single gzip-compressed child. -/
def gzIndexDoc : XTree :=
  XTree.elem (nsTag "sitemapindex".toList) none
    (XForest.ofList
      [XTree.elem (nsTag "sitemap".toList) none
        (XForest.ofList [XTree.elem (nsTag "loc".toList)
          (some "https://shopify.dev/sitemap_standard.xml.gz".toList) XForest.nil])])

/-- Network for the gzip scenario: the index URL serves the index as plain
XML (its text contains `sitemapindex`); the child URL serves gzip bytes. -/
def gzHttp : Http := fun u =>
  if u = "https://shopify.dev/sitemap.xml".toList then
    some ⟨200, .xmlText gzIndexDoc, true⟩
  else if u = "https://shopify.dev/sitemap_standard.xml.gz".toList then
    some ⟨200, .gzipOf gzChildDoc, false⟩
  else none

/-- Network for the augmentation scenario: the sitemap URL serves a
one-entry urlset. -/
def augHttp : Http := fun u =>
  if u = "https://shopify.dev/sitemap.xml".toList then
    some ⟨200, .xmlText (XTree.elem (nsTag "urlset".toList) none
      (XForest.ofList [locUrl "https://shopify.dev/docs/api/admin-graphql"])), false⟩
  else none

/-- Orchestrator environment for the augmentation scenario: a sitemap is
found and parses to one URL, while a crawl of the site would additionally
discover a second URL. -/
def augEnv : ProcEnv :=
  { findResult := some "https://shopify.dev/sitemap.xml".toList
  , http := augHttp
  , choice := "1".toList
  , manualUrl := []
  , crawlUrls := ["https://shopify.dev/docs/api/admin-graphql".toList,
                  "https://shopify.dev/docs/api/admin-graphql/reference".toList] }

/-- Orchestrator environment in which a sitemap URL is found but its
document is empty (an empty file is malformed XML for `ET.parse`). -/
def emptyFoundEnv : ProcEnv :=
  { findResult := some "https://example.com/sitemap.xml".toList
  , http := fun u => if u = "https://example.com/sitemap.xml".toList then
      some ⟨200, .badText, false⟩ else none
  , choice := "1".toList
  , manualUrl := []
  , crawlUrls := ["https://example.com/".toList] }

/-- Orchestrator environment in which no sitemap is found and the user
answers `3` (cancel) to the fallback menu. -/
def cancelEnv : ProcEnv :=
  { findResult := none
  , http := fun _ => none
  , choice := "3".toList
  , manualUrl := []
  , crawlUrls := [] }

/-! ## Claim theorems -/

/-- C1: refuted as stated — `parse_sitemap` re-raises the exception from
`ET.parse`, so an empty or malformed sitemap file raises a `ParseError`
rather than returning an empty list (only a well-formed document without
`urlset`/`loc` content yields `[]`).  The repo's own test
`test_parse_sitemap_empty_file_returns_empty_list` asserts the empty-list
behaviour the claim states, so the code contradicts its tests. -/
theorem parse_sitemap_raises_on_malformed :
    parse_sitemap .malformed = .error .parseError ∧
    parse_sitemap .ioError = .error .ioError ∧
    parse_sitemap (.parsedOk (XTree.elem "html".toList none XForest.nil)) = .ok [] := by
  decide

/-- C2: refuted as stated — `_is_valid_url` rejects
`https://shopify.dev/docs/api/admin-graphql` (its path contains the
substring `/api/`) and accepts the bare `https://shopify.dev/api` (which no
`skip_paths` entry matches; canonicalisation maps `/api/` to `/api`, which
is also accepted), the opposite of the claim and of the repo's test
`test_crawler_api_rules_allow_docs_api_and_skip_root_api`; only the direct
rejection of `https://shopify.dev/api/` agrees with the claim. -/
theorem is_valid_url_api_rules :
    is_valid_url shopifyCfg "https://shopify.dev/docs/api/admin-graphql".toList = false ∧
    is_valid_url shopifyCfg "https://shopify.dev/api".toList = true ∧
    is_valid_url shopifyCfg "https://shopify.dev/api/".toList = false ∧
    is_valid_url shopifyCfg (normalize_url "https://shopify.dev/api/".toList) = true := by
  decide

/-- C3: refuted as stated — `process_website` has no augmentation mode:
when the sitemap parse yields URLs the crawler is never run and the result
is exactly the sitemap URLs with provenance `found` (there is no
`augmented` provenance value in the code at all), so sitemap `[A]` with
crawl `[A, B]` yields `[A]`, not `[A, B]`.  The repo's test
`test_augment_crawl_merges_urls_and_updates_sitemap` calls
`process_website(..., augment_crawl=True)`, a parameter the code does not
accept. -/
theorem process_website_never_augments :
    process_website augEnv none =
      ⟨false, false,
       .ok (["https://shopify.dev/docs/api/admin-graphql".toList], .found)⟩ := by
  decide

/-- C4: refuted as stated — the three-way fallback menu is shown only when
`find_sitemap_url()` returns no URL; when a sitemap URL is found but its
document is empty or malformed, `parse_sitemap` raises and the run fails
with no prompt (first conjunct).  In the no-sitemap branch, answering `3`
does fail with the user-cancellation error (second conjunct).  The repo's
tests `test_process_empty_sitemap_prompts_and_crawls` and
`test_process_empty_sitemap_cancel_raises` assert the prompting behaviour
the claim states. -/
theorem process_website_empty_sitemap_no_prompt :
    process_website emptyFoundEnv none = ⟨false, false, .error .parseError⟩ ∧
    process_website cancelEnv none = ⟨true, false, .error .cancelled⟩ := by
  decide

/-- C5 counterexample: canonicalisation is not idempotent.  For
`https://host//` the path `//` is stripped to the empty string, giving
`https://host`, which a second canonicalisation turns into
`https://host/`. -/
theorem normalize_url_not_idempotent :
    normalize_url (normalize_url "https://host//".toList) ≠
      normalize_url "https://host//".toList := by
  decide

/-- C5 (amended): canonicalisation is idempotent for every URL whose
scheme is not HTTP(S) (passed through unchanged), and for every HTTP(S)
URL whose parsed path is empty, `/`, or starts with `/`, does not consist
entirely of slashes, and does not expose a `;params` split once trailing
slashes are stripped. -/
theorem normalize_url_idem_on_stable_paths (u : List Char)
    (h : ((urlparse u).scheme ≠ "http".toList ∧ (urlparse u).scheme ≠ "https".toList)
         ∨ stableNormPath (urlparse u).path) :
    normalize_url (normalize_url u) = normalize_url u := by
  by_cases hsch : (urlparse u).scheme = "http".toList ∨ (urlparse u).scheme = "https".toList
  · have hst : stableNormPath (urlparse u).path := by
      rcases h with ⟨h1, h2⟩ | hst
      · rcases hsch with hh | hh
        · exact absurd hh h1
        · exact absurd hh h2
      · exact hst
    have hn := netloc_chars u
    rcases hst with hP | hP | ⟨hhead, hne, hpar⟩
    · have hnu : normalize_url u =
          (urlparse u).scheme ++ "://".toList ++ (urlparse u).netloc ++ ['/'] := by
        simp only [normalize_url]
        rw [if_pos hsch, if_pos (Or.inl hP)]
      have hre := urlparse_reassembled (urlparse u).scheme (urlparse u).netloc ['/']
        hsch hn rfl (by decide) (by decide)
      rw [hnu]
      simp only [normalize_url, hre]
      rw [if_pos hsch]
      simp
    · have hnu : normalize_url u =
          (urlparse u).scheme ++ "://".toList ++ (urlparse u).netloc ++ ['/'] := by
        simp only [normalize_url]
        rw [if_pos hsch, if_pos (Or.inr hP)]
      have hre := urlparse_reassembled (urlparse u).scheme (urlparse u).netloc ['/']
        hsch hn rfl (by decide) (by decide)
      rw [hnu]
      simp only [normalize_url, hre]
      rw [if_pos hsch]
      simp
    · have hPne : ¬((urlparse u).path = [] ∨ (urlparse u).path = ['/']) := by
        rintro (h0 | h1)
        · rw [h0] at hhead
          cases hhead
        · rw [h1] at hne
          exact hne (by decide)
      have hnu : normalize_url u =
          (urlparse u).scheme ++ "://".toList ++ (urlparse u).netloc
            ++ rstripSlashes (urlparse u).path := by
        simp only [normalize_url]
        rw [if_pos hsch, if_neg hPne]
      have hpre := rstripSlashes_prefix (urlparse u).path
      have hhead' : (rstripSlashes (urlparse u).path).head? = some '/' :=
        (head?_of_prefix_ne_nil hpre hne).symm.trans hhead
      have hspec : ∀ c ∈ rstripSlashes (urlparse u).path, c ≠ '#' ∧ c ≠ '?' :=
        fun c hc => path_chars u c (hpre.subset hc)
      have hre := urlparse_reassembled (urlparse u).scheme (urlparse u).netloc
        (rstripSlashes (urlparse u).path) hsch hn hhead' hspec hpar
      rw [hnu]
      simp only [normalize_url, hre]
      rw [if_pos hsch, if_neg ?hc, rstripSlashes_idem]
      case hc =>
        rintro (h0 | h1)
        · exact hne h0
        · exact rstripSlashes_ne_slash _ h1
  · have hu : normalize_url u = u := by
      simp only [normalize_url]
      rw [if_neg hsch]
    rw [hu]
    exact hu

theorem normalize_url_idem_on_stable_paths_witness :
    stableNormPath (urlparse "https://example.com/docs/".toList).path ∧
    normalize_url (normalize_url "https://example.com/docs/".toList) =
      normalize_url "https://example.com/docs/".toList :=
  ⟨by decide,
   normalize_url_idem_on_stable_paths "https://example.com/docs/".toList
     (Or.inr (by decide))⟩

/-- C6: refuted as stated — neither `download_sitemap` nor
`_process_sitemap_index` decompresses anything: the gzip child's bytes are
fed to `ET.fromstring` as text, the resulting `ParseError` is caught and
the child skipped, so the combined urlset is empty and its parse yields
`[]` rather than the child's 2 URLs.  The repo's test
`test_sitemap_index_with_gzip_child_supported` asserts the decompression
behaviour the claim states. -/
theorem sitemap_index_gzip_child_dropped :
    download_sitemap gzHttp "https://shopify.dev/sitemap.xml".toList =
      .ok (.parsedOk (buildCombined [])) ∧
    parse_sitemap (.parsedOk (buildCombined [])) = .ok [] := by
  decide

/-- C7 counterexample: the inline normalisation of `parse_sitemap` is not
extensionally equal to `_normalize_url`: on `ftp://h/x/` the canonicaliser
passes the URL through unchanged while the inline normalisation strips the
trailing slash. -/
theorem sitemap_normalize_differs_on_nonhttp :
    sitemap_normalize "ftp://h/x/".toList ≠ normalize_url "ftp://h/x/".toList := by
  decide

/-- C7 (amended): the two normalisations agree exactly on URLs whose
parsed scheme is `http` or `https`; for other schemes `_normalize_url`
returns its input unchanged while the inline normalisation reassembles and
strips, so they differ. -/
theorem sitemap_normalize_eq_normalize_url_on_http (u : List Char)
    (h : (urlparse u).scheme = "http".toList ∨ (urlparse u).scheme = "https".toList) :
    sitemap_normalize u = normalize_url u := by
  simp only [normalize_url, sitemap_normalize]
  rw [if_pos h]

theorem sitemap_normalize_eq_normalize_url_on_http_witness :
    ((urlparse "https://example.com/a/".toList).scheme = "http".toList ∨
      (urlparse "https://example.com/a/".toList).scheme = "https".toList) ∧
    sitemap_normalize "https://example.com/a/".toList =
      normalize_url "https://example.com/a/".toList :=
  ⟨by decide,
   sitemap_normalize_eq_normalize_url_on_http "https://example.com/a/".toList
     (by decide)⟩

/-- C8: the Sitemap Reader on the six-entry urlset (root with and without
slash, `/docs` with and without slash, `/blog` with and without slash)
returns exactly the three canonical URLs, first occurrence winning,
insertion order preserved. -/
theorem parse_sitemap_dedup_first_seen :
    parse_sitemap (.parsedOk dedupDoc) =
      .ok ["https://example.com/".toList, "https://example.com/docs".toList,
           "https://example.com/blog".toList] := by
  decide

/-- C9: in any crawl run that exits on its own, the discovered-order
output list has no duplicate canonical URLs, the frontier never holds the
same URL twice, and every discovered or queued URL is in the visited set —
consequences of URLs entering the visited set at the moment they are
enqueued and only unvisited URLs being enqueued. -/
theorem crawl_discovered_nodup (fetch : Fetch) (cfg : CrawlConfig)
    (base : List Char) (fuel : Nat) (st' : CrawlState)
    (h : crawlLoop fetch cfg fuel (crawlInit base) = some st') :
    st'.discovered.Nodup ∧ (st'.queue.map Prod.fst).Nodup ∧
    (∀ u ∈ st'.discovered, u ∈ st'.visited) ∧
    (∀ p ∈ st'.queue, p.1 ∈ st'.visited) := by
  have hinit : crawlInv (crawlInit base) := by
    constructor
    · simp [crawlInit]
    · intro u hu
      simp only [crawlInit, List.nil_append, List.map_cons, List.map_nil] at hu
      simpa [crawlInit] using hu
  have hfin := crawlInv_loop fetch cfg fuel _ _ h hinit
  rcases hfin with ⟨hnd, hmem⟩
  have hparts := List.nodup_append.mp hnd
  refine ⟨hparts.1, hparts.2.1, ?_, ?_⟩
  · intro u hu
    exact hmem u (List.mem_append.mpr (Or.inl hu))
  · intro p hp
    exact hmem p.1 (List.mem_append.mpr (Or.inr (List.mem_map_of_mem Prod.fst hp)))

theorem crawl_discovered_nodup_witness :
    (⟨[], ["https://e.com/".toList], []⟩ : CrawlState).discovered.Nodup ∧
    ((⟨[], ["https://e.com/".toList], []⟩ : CrawlState).queue.map Prod.fst).Nodup ∧
    (∀ u ∈ (⟨[], ["https://e.com/".toList], []⟩ : CrawlState).discovered,
      u ∈ (⟨[], ["https://e.com/".toList], []⟩ : CrawlState).visited) ∧
    (∀ p ∈ (⟨[], ["https://e.com/".toList], []⟩ : CrawlState).queue,
      p.1 ∈ (⟨[], ["https://e.com/".toList], []⟩ : CrawlState).visited) :=
  crawl_discovered_nodup (fun _ => none) ⟨3, 5⟩ "https://e.com".toList 2
    ⟨[], ["https://e.com/".toList], []⟩ (by decide)

/-- C10: for any fetch whose link lists are bounded by `L`, the crawl loop
exits of its own accord within `(L+1)^(maxDepth+1) + 1` iterations, ending
exactly when the frontier is exhausted or the discovered count reaches the
`max_pages` cap (whichever comes first), with the output length never
exceeding the cap; and any entry dequeued at a depth exceeding `max_depth`
is discarded — the state changes only by the dequeue, with nothing fetched
or recorded. -/
theorem crawl_terminates_within_bounds (fetch : Fetch) (cfg : CrawlConfig)
    (base : List Char) (L : Nat)
    (hL : ∀ v ls, fetch v = some ls → ls.length ≤ L) :
    (∃ st', crawlLoop fetch cfg ((L + 1) ^ (cfg.maxDepth + 1) + 1)
        (crawlInit base) = some st' ∧
      st'.discovered.length ≤ cfg.maxPages ∧
      (st'.queue = [] ∨ st'.discovered.length = cfg.maxPages)) ∧
    ∀ (u : List Char) (d : Nat) (rest : List (List Char × Nat)) (st : CrawlState),
      cfg.maxDepth < d →
      crawlStep fetch cfg u d rest st = { st with queue := rest } := by
  constructor
  · have hphi : phiQ cfg L (crawlInit base).queue
        < (L + 1) ^ (cfg.maxDepth + 1) + 1 := by
      simp only [crawlInit, phiQ, entryWeight, List.map_cons, List.map_nil,
        List.sum_cons, List.sum_nil, Nat.sub_zero]
      omega
    have hsome := crawlLoop_isSome fetch cfg L hL
      ((L + 1) ^ (cfg.maxDepth + 1) + 1) (crawlInit base) hphi
    obtain ⟨st', hst'⟩ := Option.isSome_iff_exists.mp hsome
    have hfin := crawlLoop_final fetch cfg _ _ _ hst' (by simp [crawlInit])
    refine ⟨st', hst', hfin.1, ?_⟩
    rcases hfin.2 with hh | hh
    · exact Or.inl hh
    · exact Or.inr (Nat.le_antisymm hfin.1 hh)
  · intro u d rest st hd
    simp only [crawlStep]
    rw [if_pos hd]

theorem crawl_terminates_within_bounds_witness :
    (∃ st', crawlLoop (fun _ => some []) ⟨2, 3⟩ 2
        (crawlInit "https://e.com".toList) = some st' ∧
      st'.discovered.length ≤ 3 ∧
      (st'.queue = [] ∨ st'.discovered.length = 3)) ∧
    ∀ (u : List Char) (d : Nat) (rest : List (List Char × Nat)) (st : CrawlState),
      2 < d →
      crawlStep (fun _ => some []) ⟨2, 3⟩ u d rest st = { st with queue := rest } :=
  crawl_terminates_within_bounds (fun _ => some []) ⟨2, 3⟩ "https://e.com".toList 0
    (fun v ls h => by
      injection h with h2
      rw [← h2]
      exact Nat.le_refl 0)

end UrlToMarkdown
